import Mathlib

/-!
Verification of the kotoba-search word-list build pipeline
(`scripts/build_words.py`): kana normalization, reading extraction,
deduplication/sorting, and serialization.

Strings are modelled as Lean `String` (a list of Unicode scalar values),
matching Python's `str` as a sequence of code points.  Machine-level
details (file system, subprocess, EUC-JP decoding) are outside the
modelled core, exactly as the pipeline treats them as external
collaborators.
-/

namespace BuildWords

/-- Python `str.strip()` whitespace predicate: the set of code points
Python treats as whitespace (`str.isspace`), covering ASCII whitespace,
the C1 separators, NEL, NBSP, and the Unicode space separators. -/
def isPythonSpace (c : Char) : Bool :=
  c.toNat = 0x09 || c.toNat = 0x0A || c.toNat = 0x0B || c.toNat = 0x0C ||
  c.toNat = 0x0D || (0x1C ≤ c.toNat && c.toNat ≤ 0x1F) || c.toNat = 0x20 ||
  c.toNat = 0x85 || c.toNat = 0xA0 || c.toNat = 0x1680 ||
  (0x2000 ≤ c.toNat && c.toNat ≤ 0x200A) || c.toNat = 0x2028 ||
  c.toNat = 0x2029 || c.toNat = 0x202F || c.toNat = 0x205F || c.toNat = 0x3000

/-- Python `str.strip()`: remove leading and trailing whitespace. -/
def pyStrip (s : String) : String :=
  ⟨((s.data.dropWhile isPythonSpace).reverse.dropWhile isPythonSpace).reverse⟩

/-- The module-level constant
`KATAKANA_TO_HIRAGANA = {ordinal: ordinal - 0x60 for ordinal in range(ord("ァ"), ord("ヶ") + 1)}`:
an association table from each code point in `[0x30A1, 0x30F6]` to the
code point shifted down by `0x60`.  `ord("ァ") = 0x30A1`,
`ord("ヶ") = 0x30F6`, so the range has `0x56` entries. -/
def KATAKANA_TO_HIRAGANA : List (Nat × Nat) :=
  (List.range' 0x30A1 0x56).map (fun o => (o, o - 0x60))

/-- The local dict `special` in `katakana_to_hiragana`: the seven
historical/special katakana that are mapped by table rather than by the
generic shift. -/
def special : List (Char × Char) :=
  [('ヵ', 'か'), ('ヶ', 'け'), ('ヷ', 'わ'), ('ヸ', 'ゐ'),
   ('ヹ', 'ゑ'), ('ヺ', 'を'), ('ヴ', 'ゔ')]

/-- Per-character body of the loop in `katakana_to_hiragana`: a `special`
hit maps through the table; otherwise a code point in
`[ord("ァ"), ord("ヶ")] = [0x30A1, 0x30F6]` is looked up in
`KATAKANA_TO_HIRAGANA` (in Python a missing key would raise `KeyError`;
the `none` fallback below is proved unreachable further down, the
table's key set being exactly the guard range); any other character
passes through unchanged. -/
def kataToHiraChar (c : Char) : Char :=
  match List.lookup c special with
  | some h => h
  | none =>
    if 0x30A1 ≤ c.toNat ∧ c.toNat ≤ 0x30F6 then
      match List.lookup c.toNat KATAKANA_TO_HIRAGANA with
      | some n => Char.ofNat n
      | none => c
    else c

/-- The function `katakana_to_hiragana(text)`: apply `kataToHiraChar`
to every character, left to right. -/
def katakana_to_hiragana (text : String) : String :=
  ⟨text.data.map kataToHiraChar⟩

/-- Membership in the module-level constant
`ALLOWED_HIRAGANA = {chr(code) for code in range(ord("ぁ"), ord("ゟ"))} | {"ー"}`:
the set contains exactly the code points in `[0x3041, 0x309F)` plus the
prolonged-sound mark `ー = U+30FC`.  A Python set denotes its membership
predicate. -/
def ALLOWED_HIRAGANA (c : Char) : Bool :=
  (0x3041 ≤ c.toNat && c.toNat < 0x309F) || c.toNat = 0x30FC

/-- The function `normalize_hiragana(text)`: convert katakana to
hiragana, then keep only characters in `ALLOWED_HIRAGANA`. -/
def normalize_hiragana (text : String) : String :=
  ⟨(katakana_to_hiragana text).data.filter ALLOWED_HIRAGANA⟩

/-- Reading selection inside the loop of `extract_words`, for one `row`
(already known non-empty at the call site):
`if len(row) > 11 and row[11]: reading = row[11].strip()`
`elif row[0]: reading = row[0].strip()` and `reading = ""` otherwise.
Note the truthiness tests are on the fields before stripping. -/
def extractReading (row : List String) : String :=
  if 11 < row.length ∧ row.getD 11 "" ≠ "" then pyStrip (row.getD 11 "")
  else if row.getD 0 "" ≠ "" then pyStrip (row.getD 0 "")
  else ""

/-- Word contributed by one `row` of the loop in `extract_words`:
`none` when the row is skipped (`if not row: continue`) or when the
normalized reading is empty (`if hira:` fails), otherwise the normalized
reading added to `seen`. -/
def wordOf (row : List String) : Option String :=
  if row = [] then none
  else
    let hira := normalize_hiragana (extractReading row)
    if hira = "" then none else some hira

/-- Lexicographic code-point comparison on character lists, Python's
`<` on `str`. -/
def lexLt : List Char → List Char → Bool
  | _, [] => false
  | [], _ :: _ => true
  | a :: as, b :: bs =>
    if a.toNat < b.toNat then true
    else if b.toNat < a.toNat then false
    else lexLt as bs

/-- Python string comparison `s < t`: lexicographic on code points. -/
def strLt (s t : String) : Bool := lexLt s.data t.data

/-- Insertion into a strictly ascending duplicate-free list, keeping it
strictly ascending and duplicate-free: the sorted-list denotation of
`seen.add(hira)` followed by `sorted(seen)` (a Python `set` plus a final
sort denotes exactly the strictly sorted list of its distinct members). -/
def insertSorted (w : String) : List String → List String
  | [] => [w]
  | y :: ys =>
    if strLt w y then w :: y :: ys
    else if strLt y w then y :: insertSorted w ys
    else y :: ys

/-- One iteration of the loop in `extract_words`: skip empty rows and
empty normalized readings, otherwise add the word to the accumulated
set (kept as a strictly sorted list). -/
def addRow (acc : List String) (row : List String) : List String :=
  match wordOf row with
  | none => acc
  | some hira => insertSorted hira acc

/-- The function `extract_words`: accumulate the set of non-empty
normalized readings over all rows and return it sorted ascending
(`sorted(seen)`). -/
def extract_words (rows : List (List String)) : List String :=
  rows.foldl addRow []

/-- Text content written by `write_wordlist`: for each word,
`gz.write(word + "\n")` — the concatenation of the words, each followed
by a single line feed. -/
def serializeChars : List String → List Char
  | [] => []
  | w :: ws => w.data ++ '\n' :: serializeChars ws

/-- The uncompressed UTF-8 text of the artifact produced by
`write_wordlist(words)` (gzip is lossless, so decompressing the artifact
yields exactly this text). -/
def serializeText (words : List String) : String :=
  ⟨serializeChars words⟩

/-- Splitting text on line terminators (Python `str.splitlines` for
LF-delimited text): segments between line feeds, with no trailing blank
line when the text ends in a terminator. -/
def splitLinesAux : List Char → List Char → List (List Char)
  | [], [] => []
  | [], acc => [acc.reverse]
  | c :: cs, acc =>
    if c = '\n' then acc.reverse :: splitLinesAux cs []
    else splitLinesAux cs (c :: acc)

/-- Split a string on line feeds, dropping the blank after a final
terminator. -/
def splitLines (s : String) : List String :=
  (splitLinesAux s.data []).map (fun l => ⟨l⟩)

/-- The gzip member header written by CPython's
`GzipFile._write_gzip_header` for `gzip.open(WORDS_GZ, "wt")`: magic
`1f 8b`, method `08` (deflate), flags `08` (`FNAME`, since the output
path has a basename), the 32-bit little-endian modification time
(`int(time.time())` — the wall clock at the moment of the run), `XFL = 2`
(default compresslevel 9), `OS = 255`, then the stored file name
`words.txt` (the basename with its `.gz` suffix stripped) and a NUL. -/
def gzipHeader (mtime : Nat) : List Nat :=
  [0x1f, 0x8b, 8, 8,
   mtime % 256, mtime / 256 % 256, mtime / 65536 % 256, mtime / 16777216 % 256,
   2, 255] ++ "words.txt".data.map Char.toNat ++ [0]

/-- Stand-in for the deflate-compressed payload (body, CRC32 and size
trailer): zlib deflate at a fixed level is a deterministic function of
the uncompressed bytes, which is the only property used here; the
modelled artifact keeps the text abstractly as its code points.  The
non-determinism question of claim C3 lives entirely in the header,
which is modelled exactly. -/
def deflateBody (text : List Char) : List Nat :=
  text.map Char.toNat

/-- The compressed artifact bytes produced by `write_wordlist(words)`
at wall-clock time `mtime`: the gzip header (which embeds `mtime`)
followed by the compressed payload of the text. -/
def write_wordlist (mtime : Nat) (words : List String) : List Nat :=
  gzipHeader mtime ++ deflateBody (serializeChars words)

/-- Modelled from the spec of claim C1 (sections 4.2 and 8 of the
specification): extraction is claimed to test the fields after
trimming — `if the record has more than 11 fields and field 11, after
trimming surrounding whitespace, is non-empty, return it; else if
field 0, after trimming, is non-empty, return it; else return the
empty string`.  To be compared with `extractReading`. -/
def specExtract (row : List String) : String :=
  if 11 < row.length ∧ pyStrip (row.getD 11 "") ≠ "" then pyStrip (row.getD 11 "")
  else if pyStrip (row.getD 0 "") ≠ "" then pyStrip (row.getD 0 "")
  else ""

/-- Amended form of claim C1, changed only where the counterexample
forces it: the field-11 test is on the field before trimming (a
whitespace-only field 11 is selected and trims to the empty reading,
with no fallback to field 0); the field-0 branch is unchanged from the
claim, its trimmed test being equivalent to the code's untrimmed test
there. -/
def specExtractAmended (row : List String) : String :=
  if 11 < row.length ∧ row.getD 11 "" ≠ "" then pyStrip (row.getD 11 "")
  else if pyStrip (row.getD 0 "") ≠ "" then pyStrip (row.getD 0 "")
  else ""

/-! Basic facts about characters and the lexicographic order. -/

theorem charToNat_inj {a b : Char} (h : a.toNat = b.toNat) : a = b := by
  rw [← Char.ofNat_toNat a, ← Char.ofNat_toNat b, h]

theorem char_ne_of_toNat_ne {a b : Char} (h : a.toNat ≠ b.toNat) : a ≠ b :=
  fun he => h (he ▸ rfl)

theorem lexLt_irrefl (l : List Char) : lexLt l l = false := by
  induction l with
  | nil => rfl
  | cons a as ih => simp [lexLt, ih]

theorem lexLt_asymm : ∀ {l₁ l₂ : List Char}, lexLt l₁ l₂ = true → lexLt l₂ l₁ = false := by
  intro l₁
  induction l₁ with
  | nil =>
    intro l₂ h
    cases l₂ with
    | nil => simp [lexLt] at h
    | cons b bs => rfl
  | cons a as ih =>
    intro l₂ h
    cases l₂ with
    | nil => simp [lexLt] at h
    | cons b bs =>
      rcases Nat.lt_trichotomy a.toNat b.toNat with hab | hab | hab
      · have hba : ¬ b.toNat < a.toNat := by omega
        simp [lexLt, hab, hba]
      · have h1 : ¬ a.toNat < b.toNat := by omega
        have h2 : ¬ b.toNat < a.toNat := by omega
        simp [lexLt, h1, h2] at h ⊢
        exact ih h
      · have h1 : ¬ a.toNat < b.toNat := by omega
        simp [lexLt, h1, hab] at h

theorem lexLt_trans : ∀ {l₁ l₂ l₃ : List Char},
    lexLt l₁ l₂ = true → lexLt l₂ l₃ = true → lexLt l₁ l₃ = true := by
  intro l₁
  induction l₁ with
  | nil =>
    intro l₂ l₃ h12 h23
    cases l₂ with
    | nil => simp [lexLt] at h12
    | cons b bs =>
      cases l₃ with
      | nil => simp [lexLt] at h23
      | cons c cs => rfl
  | cons a as ih =>
    intro l₂ l₃ h12 h23
    cases l₂ with
    | nil => simp [lexLt] at h12
    | cons b bs =>
      cases l₃ with
      | nil => simp [lexLt] at h23
      | cons c cs =>
        rcases Nat.lt_trichotomy a.toNat b.toNat with hab | hab | hab <;>
          rcases Nat.lt_trichotomy b.toNat c.toNat with hbc | hbc | hbc
        all_goals
          first
          | (have hac : a.toNat < c.toNat := by omega
             simp [lexLt, hac])
          | (have h1 : ¬ a.toNat < b.toNat := by omega
             have h2 : b.toNat < a.toNat := by omega
             simp [lexLt, h1, h2] at h12)
          | (have h1 : ¬ b.toNat < c.toNat := by omega
             have h2 : c.toNat < b.toNat := by omega
             simp [lexLt, h1, h2] at h23)
          | (have h1 : ¬ a.toNat < b.toNat := by omega
             have h2 : ¬ b.toNat < a.toNat := by omega
             have h3 : ¬ b.toNat < c.toNat := by omega
             have h4 : ¬ c.toNat < b.toNat := by omega
             have h5 : ¬ a.toNat < c.toNat := by omega
             have h6 : ¬ c.toNat < a.toNat := by omega
             simp [lexLt, h1, h2, h3, h4, h5, h6] at h12 h23 ⊢
             exact ih h12 h23)

theorem lexLt_connex : ∀ {l₁ l₂ : List Char},
    lexLt l₁ l₂ = false → lexLt l₂ l₁ = false → l₁ = l₂ := by
  intro l₁
  induction l₁ with
  | nil =>
    intro l₂ h12 h21
    cases l₂ with
    | nil => rfl
    | cons b bs => simp [lexLt] at h12
  | cons a as ih =>
    intro l₂ h12 h21
    cases l₂ with
    | nil => simp [lexLt] at h21
    | cons b bs =>
      rcases Nat.lt_trichotomy a.toNat b.toNat with hab | hab | hab
      · simp [lexLt, hab] at h12
      · have h1 : ¬ a.toNat < b.toNat := by omega
        have h2 : ¬ b.toNat < a.toNat := by omega
        simp [lexLt, h1, h2] at h12 h21
        have hc : a = b := charToNat_inj hab
        rw [hc, ih h12 h21]
      · simp [lexLt, hab] at h21

theorem strLt_irrefl (s : String) : strLt s s = false := lexLt_irrefl s.data

theorem strLt_asymm {s t : String} (h : strLt s t = true) : strLt t s = false :=
  lexLt_asymm h

theorem strLt_trans {s t u : String} (h1 : strLt s t = true) (h2 : strLt t u = true) :
    strLt s u = true :=
  lexLt_trans h1 h2

theorem strLt_connex {s t : String} (h1 : strLt s t = false) (h2 : strLt t s = false) :
    s = t :=
  String.ext (lexLt_connex h1 h2)

theorem strLt_ne {s t : String} (h : strLt s t = true) : s ≠ t := by
  intro he
  rw [he, strLt_irrefl] at h
  exact Bool.false_ne_true h

/-! Properties of sorted insertion and of the accumulation loop. -/

theorem mem_insertSorted {a w : String} :
    ∀ {l : List String}, a ∈ insertSorted w l ↔ (a = w ∨ a ∈ l) := by
  intro l
  induction l with
  | nil => simp [insertSorted]
  | cons y ys ih =>
    by_cases hwy : strLt w y = true
    · simp [insertSorted, hwy]
    · by_cases hyw : strLt y w = true
      · have hwyf : strLt w y = false := Bool.eq_false_iff.mpr hwy
        simp only [insertSorted, hwyf, hyw, Bool.false_eq_true, if_false, if_true,
          List.mem_cons, ih]
        tauto
      · have hwyf : strLt w y = false := Bool.eq_false_iff.mpr hwy
        have hywf : strLt y w = false := Bool.eq_false_iff.mpr hyw
        have heq : y = w := strLt_connex hywf hwyf
        subst heq
        simp only [insertSorted, hwyf, Bool.false_eq_true, if_false, List.mem_cons]
        tauto

theorem pairwise_insertSorted {w : String} :
    ∀ {l : List String}, l.Pairwise (fun a b => strLt a b = true) →
      (insertSorted w l).Pairwise (fun a b => strLt a b = true) := by
  intro l
  induction l with
  | nil =>
    intro _
    simp [insertSorted]
  | cons y ys ih =>
    intro hp
    rw [List.pairwise_cons] at hp
    obtain ⟨hy, hys⟩ := hp
    by_cases hwy : strLt w y = true
    · simp only [insertSorted, hwy, if_true]
      rw [List.pairwise_cons]
      constructor
      · intro b hb
        rcases List.mem_cons.mp hb with hb | hb
        · exact hb ▸ hwy
        · exact strLt_trans hwy (hy b hb)
      · exact List.pairwise_cons.mpr ⟨hy, hys⟩
    · by_cases hyw : strLt y w = true
      · have hwyf : strLt w y = false := Bool.eq_false_iff.mpr hwy
        simp only [insertSorted, hwyf, hyw, Bool.false_eq_true, if_false, if_true]
        rw [List.pairwise_cons]
        constructor
        · intro b hb
          rcases mem_insertSorted.mp hb with hb | hb
          · exact hb ▸ hyw
          · exact hy b hb
        · exact ih hys
      · have hwyf : strLt w y = false := Bool.eq_false_iff.mpr hwy
        have hywf : strLt y w = false := Bool.eq_false_iff.mpr hyw
        simp only [insertSorted, hwyf, hywf, Bool.false_eq_true, if_false]
        exact List.pairwise_cons.mpr ⟨hy, hys⟩

theorem pairwise_foldl_addRow :
    ∀ (rows : List (List String)) (acc : List String),
      acc.Pairwise (fun a b => strLt a b = true) →
      (rows.foldl addRow acc).Pairwise (fun a b => strLt a b = true) := by
  intro rows
  induction rows with
  | nil => intro acc h; simpa using h
  | cons r rs ih =>
    intro acc h
    rw [List.foldl_cons]
    apply ih
    unfold addRow
    cases wordOf r with
    | none => exact h
    | some hira => exact pairwise_insertSorted h

theorem mem_foldl_addRow {a : String} :
    ∀ (rows : List (List String)) (acc : List String),
      a ∈ rows.foldl addRow acc ↔ (a ∈ acc ∨ a ∈ rows.filterMap wordOf) := by
  intro rows
  induction rows with
  | nil => intro acc; simp
  | cons r rs ih =>
    intro acc
    rw [List.foldl_cons, ih (addRow acc r), List.filterMap_cons]
    unfold addRow
    cases wordOf r with
    | none => simp
    | some hira =>
      simp only [mem_insertSorted, List.mem_cons]
      tauto

theorem extract_words_pairwise (rows : List (List String)) :
    (extract_words rows).Pairwise (fun a b => strLt a b = true) :=
  pairwise_foldl_addRow rows [] (List.Pairwise.nil)

theorem mem_extract_words {a : String} (rows : List (List String)) :
    a ∈ extract_words rows ↔ a ∈ rows.filterMap wordOf := by
  rw [extract_words, mem_foldl_addRow]
  simp

theorem sorted_ext :
    ∀ {l₁ l₂ : List String},
      l₁.Pairwise (fun a b => strLt a b = true) →
      l₂.Pairwise (fun a b => strLt a b = true) →
      (∀ a, a ∈ l₁ ↔ a ∈ l₂) → l₁ = l₂ := by
  intro l₁
  induction l₁ with
  | nil =>
    intro l₂ _ _ hm
    cases l₂ with
    | nil => rfl
    | cons b bs =>
      exact absurd ((hm b).mpr (List.mem_cons_self b bs)) (List.not_mem_nil b)
  | cons a as ih =>
    intro l₂ h₁ h₂ hm
    cases l₂ with
    | nil =>
      exact absurd ((hm a).mp (List.mem_cons_self a as)) (List.not_mem_nil a)
    | cons b bs =>
      rw [List.pairwise_cons] at h₁ h₂
      obtain ⟨ha, has⟩ := h₁
      obtain ⟨hb, hbs⟩ := h₂
      have hab : a = b := by
        by_contra hne
        have ha2 : a ∈ b :: bs := (hm a).mp (List.mem_cons_self a as)
        have hb1 : b ∈ a :: as := (hm b).mpr (List.mem_cons_self b bs)
        have ha2' : a ∈ bs := by
          rcases List.mem_cons.mp ha2 with h | h
          · exact absurd h hne
          · exact h
        have hb1' : b ∈ as := by
          rcases List.mem_cons.mp hb1 with h | h
          · exact absurd h.symm hne
          · exact h
        have h1 : strLt a b = true := ha b hb1'
        have h2 : strLt b a = true := hb a ha2'
        rw [strLt_asymm h1] at h2
        exact Bool.false_ne_true h2
      subst hab
      have htails : ∀ x, x ∈ as ↔ x ∈ bs := by
        intro x
        constructor
        · intro hx
          have : x ∈ a :: bs := (hm x).mp (List.mem_cons_of_mem a hx)
          rcases List.mem_cons.mp this with h | h
          · exact absurd h (strLt_ne (ha x hx)).symm
          · exact h
        · intro hx
          have : x ∈ a :: as := (hm x).mpr (List.mem_cons_of_mem a hx)
          rcases List.mem_cons.mp this with h | h
          · exact absurd h (strLt_ne (hb x hx)).symm
          · exact h
      rw [ih has hbs htails]

/-! Properties of the normalizer. -/

theorem lookup_special_eq_none {c : Char}
    (h : c.toNat < 0x30F4 ∨ 0x30FA < c.toNat) : List.lookup c special = none := by
  have t1 : ('ヵ' : Char).toNat = 0x30F5 := rfl
  have t2 : ('ヶ' : Char).toNat = 0x30F6 := rfl
  have t3 : ('ヷ' : Char).toNat = 0x30F7 := rfl
  have t4 : ('ヸ' : Char).toNat = 0x30F8 := rfl
  have t5 : ('ヹ' : Char).toNat = 0x30F9 := rfl
  have t6 : ('ヺ' : Char).toNat = 0x30FA := rfl
  have t7 : ('ヴ' : Char).toNat = 0x30F4 := rfl
  have n1 : (c == 'ヵ') = false := beq_eq_false_iff_ne.mpr (char_ne_of_toNat_ne (by omega))
  have n2 : (c == 'ヶ') = false := beq_eq_false_iff_ne.mpr (char_ne_of_toNat_ne (by omega))
  have n3 : (c == 'ヷ') = false := beq_eq_false_iff_ne.mpr (char_ne_of_toNat_ne (by omega))
  have n4 : (c == 'ヸ') = false := beq_eq_false_iff_ne.mpr (char_ne_of_toNat_ne (by omega))
  have n5 : (c == 'ヹ') = false := beq_eq_false_iff_ne.mpr (char_ne_of_toNat_ne (by omega))
  have n6 : (c == 'ヺ') = false := beq_eq_false_iff_ne.mpr (char_ne_of_toNat_ne (by omega))
  have n7 : (c == 'ヴ') = false := beq_eq_false_iff_ne.mpr (char_ne_of_toNat_ne (by omega))
  simp [special, List.lookup, n1, n2, n3, n4, n5, n6, n7]

theorem allowed_fixed {c : Char} (h : ALLOWED_HIRAGANA c = true) :
    kataToHiraChar c = c := by
  have hc : (0x3041 ≤ c.toNat ∧ c.toNat < 0x309F) ∨ c.toNat = 0x30FC := by
    simpa [ALLOWED_HIRAGANA] using h
  have hsp : List.lookup c special = none := lookup_special_eq_none (by omega)
  have hguard : ¬ (0x30A1 ≤ c.toNat ∧ c.toNat ≤ 0x30F6) := by omega
  unfold kataToHiraChar
  rw [hsp]
  exact if_neg hguard

theorem mem_normalize_allowed {c : Char} {s : String}
    (h : c ∈ (normalize_hiragana s).data) : ALLOWED_HIRAGANA c = true := by
  have h' : c ∈ (katakana_to_hiragana s).data.filter ALLOWED_HIRAGANA := h
  exact (List.mem_filter.mp h').2

theorem map_id_of_fixed : ∀ {l : List Char} {f : Char → Char},
    (∀ c ∈ l, f c = c) → l.map f = l := by
  intro l
  induction l with
  | nil => intro f _; rfl
  | cons c cs ih =>
    intro f h
    rw [List.map_cons, h c (List.mem_cons_self c cs),
      ih (fun d hd => h d (List.mem_cons_of_mem c hd))]

theorem normalize_of_allowed {s : String}
    (h : ∀ c ∈ s.data, ALLOWED_HIRAGANA c = true) : normalize_hiragana s = s := by
  apply String.ext
  show (katakana_to_hiragana s).data.filter ALLOWED_HIRAGANA = s.data
  have hk : (katakana_to_hiragana s).data = s.data :=
    map_id_of_fixed (fun c hc => allowed_fixed (h c hc))
  rw [hk]
  exact List.filter_eq_self.mpr h

/-! Properties of the per-row word. -/

theorem wordOf_eq_some {row : List String} {a : String} (h : wordOf row = some a) :
    a = normalize_hiragana (extractReading row) ∧ a ≠ "" := by
  unfold wordOf at h
  by_cases h1 : row = []
  · simp [h1] at h
  · simp only [h1, if_false] at h
    by_cases h2 : normalize_hiragana (extractReading row) = ""
    · simp [h2] at h
    · simp only [h2, if_false, if_neg h2, Option.some.injEq] at h
      exact ⟨h.symm, h ▸ h2⟩

theorem wordOf_allowed {row : List String} {a : String} (h : wordOf row = some a) :
    ∀ c ∈ a.data, ALLOWED_HIRAGANA c = true := by
  intro c hc
  rw [(wordOf_eq_some h).1] at hc
  exact mem_normalize_allowed hc

/-! Round trip of the line-delimited serialization. -/

theorem splitLinesAux_line :
    ∀ (l acc rest : List Char), (∀ c ∈ l, c ≠ '\n') →
      splitLinesAux (l ++ '\n' :: rest) acc =
        (acc.reverse ++ l) :: splitLinesAux rest [] := by
  intro l
  induction l with
  | nil => intro acc rest _; simp [splitLinesAux]
  | cons c cs ih =>
    intro acc rest h
    have hc : c ≠ '\n' := h c (List.mem_cons_self c cs)
    show splitLinesAux (c :: (cs ++ '\n' :: rest)) acc = _
    rw [splitLinesAux, if_neg hc,
      ih (c :: acc) rest (fun d hd => h d (List.mem_cons_of_mem c hd))]
    simp

theorem splitLinesAux_serialize :
    ∀ (ws : List String), (∀ w ∈ ws, ∀ c ∈ w.data, c ≠ '\n') →
      splitLinesAux (serializeChars ws) [] = ws.map String.data := by
  intro ws
  induction ws with
  | nil => intro _; rfl
  | cons w ws ih =>
    intro h
    show splitLinesAux (w.data ++ '\n' :: serializeChars ws) [] = _
    rw [splitLinesAux_line w.data [] (serializeChars ws) (h w (List.mem_cons_self w ws)),
      ih (fun v hv => h v (List.mem_cons_of_mem w hv))]
    simp

theorem splitLines_serializeText {ws : List String}
    (h : ∀ w ∈ ws, ∀ c ∈ w.data, c ≠ '\n') : splitLines (serializeText ws) = ws := by
  unfold splitLines serializeText
  rw [show (String.mk (serializeChars ws)).data = serializeChars ws from rfl,
    splitLinesAux_serialize ws h, List.map_map]
  exact List.map_id ws

/-! Totality of the shift-table lookup. -/

theorem lookup_range'_shift :
    ∀ (len a n : Nat),
      List.lookup n ((List.range' a len).map (fun o => (o, o - 0x60))) =
        if a ≤ n ∧ n < a + len then some (n - 0x60) else none := by
  intro len
  induction len with
  | zero =>
    intro a n
    have hl : List.lookup n ((List.range' a 0).map (fun o => (o, o - 0x60))) = none := rfl
    rw [hl, if_neg (by omega)]
  | succ len ih =>
    intro a n
    rw [List.range'_succ]
    simp only [List.map_cons]
    by_cases hna : n = a
    · subst hna
      have hb : (n == n) = true := beq_self_eq_true n
      simp only [List.lookup, hb]
      rw [if_pos (by omega)]
    · have hb : (n == a) = false := beq_eq_false_iff_ne.mpr hna
      simp only [List.lookup, hb]
      rw [ih (a + 1) n]
      exact if_congr (by omega) rfl rfl

/-! Claim theorems. -/

/-- Record with twelve fields whose field 11 is whitespace-only and whose
field 0 is a non-blank reading: the point where the code and the claimed
extraction contract of claim C1 disagree. -/
def c1Row : List String :=
  ["あ", "", "", "", "", "", "", "", "", "", "", " "]

/-- C1 counterexample: on a record whose field 11 is a single space and
whose field 0 is `あ`, the code selects field 11 (truthy before
trimming) and returns the empty string, while the claimed contract
(trimmed-field test, `specExtract`) falls back to field 0 and returns
`あ`. -/
theorem c1_counterexample :
    extractReading c1Row = "" ∧ specExtract c1Row = "あ" ∧
      extractReading c1Row ≠ specExtract c1Row := by
  decide

/-- C1 amended: extraction tests field 11 before trimming — if the
record has more than 11 fields and field 11 is non-empty (even if
whitespace-only), the trimmed field 11 is returned (possibly empty,
with no fallback); otherwise, if field 0 after trimming is non-empty,
the trimmed field 0 is returned; otherwise the empty string. -/
theorem c1_extract_amended (row : List String) :
    extractReading row = specExtractAmended row := by
  unfold extractReading specExtractAmended
  by_cases h1 : 11 < row.length ∧ row.getD 11 "" ≠ ""
  · rw [if_pos h1, if_pos h1]
  · rw [if_neg h1, if_neg h1]
    by_cases h2 : pyStrip (row.getD 0 "") = ""
    · by_cases h3 : row.getD 0 "" ≠ ""
      · rw [if_pos h3, if_neg (fun hne => hne h2), h2]
      · rw [if_neg h3, if_neg (fun hne => hne h2)]
    · have h3 : row.getD 0 "" ≠ "" := fun he => h2 (by rw [he]; rfl)
      rw [if_pos h3, if_pos h2]

/-- C2 counterexample: the claim's expected string spells the second
character as the full-size hiragana `あ` (U+3042), but the generic
0x60 shift maps the small katakana `ァ` (U+30A1) to the small hiragana
`ぁ` (U+3041), so the code's output differs from the claimed string. -/
theorem c2_counterexample :
    normalize_hiragana "ヴァイオリン" ≠ "ゔあいおりん" := by
  decide

/-- C2 amended: normalize("ヴァイオリン") returns "ゔぁいおりん" —
`ヴ` maps via the exception table to `ゔ` (U+3094) and every remaining
character is shifted by the generic rule, which takes the small
katakana `ァ` (U+30A1) to the small hiragana `ぁ` (U+3041). -/
theorem c2_normalize_violin :
    normalize_hiragana "ヴァイオリン" = "ゔぁいおりん" := by
  decide

/-- C3: the serialized artifact is not a function of the word list
alone — the gzip header written by `gzip.open` embeds the wall-clock
modification time (`int(time.time())`), so two runs over the same
OutputSequence at different times produce different bytes (they differ
in bytes 4–7 of the header). -/
theorem c3_mtime_dependence :
    write_wordlist 0 ["あい"] ≠ write_wordlist 1 ["あい"] := by
  decide

/-- C4: normalization is idempotent — every character the normalizer
emits lies in the allowed alphabet, on which the exception table misses,
the shift guard fails, and the final filter keeps everything, so a
second pass is the identity. -/
theorem c4_normalize_idempotent (s : String) :
    normalize_hiragana (normalize_hiragana s) = normalize_hiragana s :=
  normalize_of_allowed (fun _ hc => mem_normalize_allowed hc)

/-- C5: alphabet closure — every character of `normalize_hiragana s`
has a code point in `[U+3041, U+309E]` or is the prolonged-sound mark
U+30FC. -/
theorem c5_alphabet_closure (s : String) :
    ∀ c ∈ (normalize_hiragana s).data,
      (0x3041 ≤ c.toNat ∧ c.toNat ≤ 0x309E) ∨ c.toNat = 0x30FC := by
  intro c hc
  have h := mem_normalize_allowed hc
  simp [ALLOWED_HIRAGANA] at h
  omega

/-- Witness for C5 at the concrete input `アー`, whose normalization
`あー` contains the prolonged-sound mark. -/
theorem c5_witness :
    'ー' ∈ (normalize_hiragana "アー").data ∧
      ((0x3041 ≤ 'ー'.toNat ∧ 'ー'.toNat ≤ 0x309E) ∨ 'ー'.toNat = 0x30FC) :=
  ⟨by decide, c5_alphabet_closure "アー" 'ー' (by decide)⟩

/-- C6: the exception table overrides the generic shift on its seven
characters — `ヵ` and `ヶ` map to the full-size `か` and `け` rather
than the small `ゕ`/`ゖ` the 0x60 shift would give, and the five
historical voiced katakana map to their hiragana counterparts. -/
theorem c6_exception_table :
    normalize_hiragana "ヵ" = "か" ∧ normalize_hiragana "ヶ" = "け" ∧
    normalize_hiragana "ヷ" = "わ" ∧ normalize_hiragana "ヸ" = "ゐ" ∧
    normalize_hiragana "ヹ" = "ゑ" ∧ normalize_hiragana "ヺ" = "を" ∧
    normalize_hiragana "ヴ" = "ゔ" ∧
    normalize_hiragana "ヵ" ≠ "ゕ" ∧ normalize_hiragana "ヶ" ≠ "ゖ" := by
  decide

/-- C7: for every record list the produced OutputSequence is strictly
ascending under code-point comparison, duplicate-free, and free of the
empty string. -/
theorem c7_output_invariant (rows : List (List String)) :
    (extract_words rows).Pairwise (fun a b => strLt a b = true) ∧
    (extract_words rows).Nodup ∧ "" ∉ extract_words rows := by
  refine ⟨extract_words_pairwise rows, ?_, ?_⟩
  · exact (extract_words_pairwise rows).imp (fun h => strLt_ne h)
  · intro hmem
    rcases List.mem_filterMap.mp ((mem_extract_words rows).mp hmem) with ⟨row, _, hw⟩
    exact (wordOf_eq_some hw).2 rfl

/-- Witness for C7 at a concrete two-record input. -/
theorem c7_witness :
    (extract_words [["イ"], ["ア"]]).Pairwise (fun a b => strLt a b = true) ∧
    (extract_words [["イ"], ["ア"]]).Nodup ∧ "" ∉ extract_words [["イ"], ["ア"]] :=
  c7_output_invariant [["イ"], ["ア"]]

/-- C8: order independence — permuting the record list leaves the
OutputSequence identical, both outputs being strictly sorted lists with
the same members. -/
theorem c8_order_independence {rows₁ rows₂ : List (List String)}
    (h : rows₁.Perm rows₂) : extract_words rows₁ = extract_words rows₂ := by
  apply sorted_ext (extract_words_pairwise rows₁) (extract_words_pairwise rows₂)
  intro a
  rw [mem_extract_words, mem_extract_words]
  exact (h.filterMap wordOf).mem_iff

/-- Witness for C8 at a concrete transposition of two records. -/
theorem c8_witness :
    extract_words [["ア"], ["イ"]] = extract_words [["イ"], ["ア"]] :=
  c8_order_independence (List.Perm.swap ["イ"] ["ア"] [])

/-- C9: round trip — splitting the decompressed artifact text on line
terminators reproduces the OutputSequence exactly, every output word
being alphabet-restricted and hence free of line feeds. -/
theorem c9_round_trip (rows : List (List String)) :
    splitLines (serializeText (extract_words rows)) = extract_words rows := by
  apply splitLines_serializeText
  intro w hw c hc he
  rcases List.mem_filterMap.mp ((mem_extract_words rows).mp hw) with ⟨row, _, hword⟩
  have hall := wordOf_allowed hword c hc
  rw [he] at hall
  exact absurd hall (by decide)

/-- C10: the shift table is defined on exactly the guard range — a
lookup succeeds, returning the code point shifted down by 0x60, if and
only if the code point lies in `[U+30A1, U+30F6]`, so the guarded
dictionary access in the dispatch can never raise. -/
theorem c10_lookup_total (n : Nat) :
    List.lookup n KATAKANA_TO_HIRAGANA =
      if 0x30A1 ≤ n ∧ n ≤ 0x30F6 then some (n - 0x60) else none := by
  unfold KATAKANA_TO_HIRAGANA
  rw [lookup_range'_shift]
  exact if_congr (by omega) rfl rfl

end BuildWords
